import Mathlib

/-!
Shallow embedding of the `codd` relational-algebra core (`src/lib.rs`).

Conventions of the embedding:
* Rust `i64` / `i32` are modelled as `Int` (no claim exercises overflow;
  the surrogate counter only ever increments from 0).
* A Rust panic (out-of-bounds indexing, `Option::unwrap` on `None`,
  `unimplemented!()`) is modelled by returning `none` in an outer `Option`
  layer; `some x` means the Rust function returned normally with `x`.
* `BTreeMap<Value, Row>` is modelled as an association list kept sorted by
  key (`mapInsert` replaces the value at an existing key, like
  `BTreeMap::insert`); `tuples` enumerates values in key order, as
  `BTreeMap::values` does.  `BTreeMap<i32, Row>` of the surrogate storage
  is modelled the same way with `Int` keys.
* Rust `Iterator::position` and eager `collect` of fallible indexing are
  modelled by the explicit `position` and `optionMap` functions.
-/

namespace Codd

/-- Rust `i64` (overflow is not exercised by any modelled operation). -/
abbrev I64 := Int

/-- Rust `i32` surrogate counter (only ever incremented from 0). -/
abbrev I32 := Int

/-- `enum Type { Str, Int }` (named `Ty` because `Type` is reserved in Lean). -/
inductive Ty where
  | Str
  | Int
deriving DecidableEq, Repr

/-- `enum Value { Str(String), Int(i64) }`. -/
inductive Value where
  | Str : String → Value
  | Int : I64 → Value
deriving DecidableEq, Repr

/-- `type Row = Vec<Value>`. -/
abbrev Row := List Value

/-- Derived `Ord` on `Value`: variant tag (`Str` before `Int`), then payload. -/
def Value.lt : Value → Value → Bool
  | .Str a, .Str b => decide (a < b)
  | .Str _, .Int _ => true
  | .Int _, .Str _ => false
  | .Int a, .Int b => decide (a < b)

/-- `struct Attribute { name: String, atype: Type }`. -/
structure Attribute where
  name : String
  atype : Ty
deriving DecidableEq, Repr

/-- `struct Schema { attributes: Vec<Attribute> }`. -/
structure Schema where
  attributes : List Attribute
deriving DecidableEq, Repr

/-- `impl PartialEq<Value> for Type` — a type tag matches a value variant. -/
def tyMatches : Ty → Value → Bool
  | .Str, .Str _ => true
  | .Int, .Int _ => true
  | _, _ => false

/-- `Schema::validate_row`. -/
def Schema.validate_row (s : Schema) (row : Row) : Bool :=
  if row.length ≠ s.attributes.length then false
  else (s.attributes.zip row).all fun ab => tyMatches ab.1.atype ab.2

/-- `BTreeMap::insert` on the keyed map: place `(k, v)` at its sorted
position, replacing the entry at `k` if one exists. -/
def mapInsert (k : Value) (v : Row) : List (Value × Row) → List (Value × Row)
  | [] => [(k, v)]
  | e :: rest =>
    if k = e.1 then (k, v) :: rest
    else if Value.lt k e.1 then (k, v) :: e :: rest
    else e :: mapInsert k v rest

/-- `BTreeMap::insert` on the surrogate map (`i32` keys). -/
def mapInsertI (k : I32) (v : Row) : List (I32 × Row) → List (I32 × Row)
  | [] => [(k, v)]
  | e :: rest =>
    if k = e.1 then (k, v) :: rest
    else if decide (k < e.1) then (k, v) :: e :: rest
    else e :: mapInsertI k v rest

/-- `enum Data { WithPK(BTreeMap<Value, Row>), NoPK((i32, BTreeMap<i32, Row>)) }`. -/
inductive Data where
  | WithPK : List (Value × Row) → Data
  | NoPK : I32 → List (I32 × Row) → Data
deriving DecidableEq, Repr

/-- `Data::insert`.  `WithPK` with no key prints and returns `false`
(no mutation); otherwise the write is unconditional and returns `true`. -/
def Data.insert : Data → Option Value → Row → Bool × Data
  | .WithPK m, none, _ => (false, .WithPK m)
  | .WithPK m, some k, row => (true, .WithPK (mapInsert k row m))
  | .NoPK c m, _, row => (true, .NoPK (c + 1) (mapInsertI c row m))

/-- `Data::contains`: key membership for `WithPK`, structural row equality
for `NoPK`; a missing argument prints and returns `false`. -/
def Data.contains : Data → Option Value → Option Row → Bool
  | .WithPK _, none, _ => false
  | .WithPK m, some k, _ => m.any fun e => decide (e.1 = k)
  | .NoPK _ _, _, none => false
  | .NoPK _ m, _, some r => m.any fun e => decide (e.2 = r)

/-- `Data::tuples`: all rows in map iteration (key) order. -/
def Data.tuples : Data → List Row
  | .WithPK m => m.map Prod.snd
  | .NoPK _ m => m.map Prod.snd

/-- `struct Relation { name, pk: Option<usize>, schema, data }`. -/
structure Relation where
  name : String
  pk : Option Nat
  schema : Schema
  data : Data
deriving DecidableEq, Repr

/-- Rust slice indexing `row[i]` : panics (`none`) when out of bounds. -/
def idx (row : Row) (i : Nat) : Option Value := row.get? i

/-- `Relation::insert_row`.  `none` models a panic (indexing `row[pk]`
out of bounds). -/
def Relation.insert_row (rel : Relation) (row : Row) : Option (Bool × Relation) :=
  if !(rel.schema.validate_row row) then some (false, rel)
  else
    match rel.pk with
    | none =>
        let bd := rel.data.insert none row
        some (bd.1, { rel with data := bd.2 })
    | some i =>
        match idx row i with
        | none => none
        | some k =>
            if rel.data.contains (some k) none then some (false, rel)
            else some (true, { rel with data := (rel.data.insert (some k) row).2 })

/-- Eager `map(..).collect()` over fallible per-element evaluation:
`none` as soon as any element panics (models `rows.iter().map(|r| r[pk])`). -/
def optionMap (f : α → Option β) : List α → Option (List β)
  | [] => some []
  | a :: l => (f a).bind fun b => (optionMap f l).map fun bs => b :: bs

/-- `Relation::insert_rows` (check-then-commit batch insert). -/
def Relation.insert_rows (rel : Relation) (rows : List Row) : Option (Bool × Relation) :=
  if !(rows.all fun r => rel.schema.validate_row r) then some (false, rel)
  else
    match rel.pk with
    | none =>
        some (true, { rel with data := rows.foldl (fun d r => (d.insert none r).2) rel.data })
    | some i =>
        match optionMap (fun r => idx r i) rows with
        | none => none
        | some keys =>
            if keys.dedup.length ≠ rows.length then some (false, rel)
            else if !(keys.all fun k => !(rel.data.contains (some k) none)) then
              some (false, rel)
            else
              some (true, { rel with data :=
                (rows.zip keys).foldl (fun d rk => (d.insert (some rk.2) rk.1).2) rel.data })

/-- `enum Comp`. -/
inductive Comp where
  | GT | LT | GE | LE | EQ | NE
deriving DecidableEq, Repr

/-- `enum Connective`. -/
inductive Connective where
  | AND | OR
deriving DecidableEq, Repr

/-- `enum SelPredicate` (recursive conjunction/disjunction chain). -/
inductive SelPredicate where
  | Condition : (Attribute × Comp × Value) → Option (Connective × SelPredicate) → SelPredicate
  | None : SelPredicate

/-- `SelPredicate::validate`: `unimplemented!()` on `Condition` (a panic,
modelled as `none`); falls through to `false` on `None`. -/
def SelPredicate.validate : SelPredicate → Option Bool
  | .Condition _ _ => none
  | .None => some false

/-- `enum ProjAttrs { Attr(Attribute, Option<Box<ProjAttrs>>), None }`. -/
inductive ProjAttrs where
  | Attr : Attribute → Option ProjAttrs → ProjAttrs
  | None : ProjAttrs

/-- `ProjAttrs::iter` collected to a list (the custom iterator walks the
chain front to back). -/
def ProjAttrs.toList : ProjAttrs → List Attribute
  | .None => []
  | .Attr a none => [a]
  | .Attr a (some n) => a :: n.toList

/-- Rust `Iterator::position`: index of the first element satisfying `p`. -/
def position (p : α → Bool) : List α → Option Nat
  | [] => none
  | a :: l => if p a then some 0 else (position p l).map (· + 1)

/-- The projected row built for one source row: keep, in source-position
order, the values whose position is among the selected indices
(`.enumerate().filter(..).map(..)` in the source). -/
def projectRow (idxs : List Nat) (inner : Row) : Row :=
  (inner.enum.filter fun iv => decide (iv.1 ∈ idxs)).map fun iv => iv.2

/-- The selected source-schema indices of the requested attributes
(`position` of each requested attribute, in request order), when all are
present. -/
def selIndices (p : ProjAttrs) (rel : Relation) : List Nat :=
  p.toList.filterMap fun a => position (fun x => decide (x = a)) rel.schema.attributes

/-- `ProjAttrs::execute`.  Outer `none` models a panic; `some none` models
Rust `None`; `some (some d)` models `Some(derived)`.

Faithfulness notes mirrored from the source:
* the membership check of every requested attribute happens before the
  index `unwrap`s, so an unknown attribute yields `Some(None)`;
* line 326 of the source combines `relation.pk.is_some()` and
  `!indices.contains(&relation.pk.unwrap())` with the non-short-circuiting
  `&` operator, so `relation.pk.unwrap()` is evaluated even when `pk` is
  `None`: an explicit attribute list on a key-less relation panics;
* the derived relation of the key-kept branch copies `relation.pk`
  verbatim (the source-schema index, not the index in the request list). -/
def ProjAttrs.execute (p : ProjAttrs) (relation : Relation) : Option (Option Relation) :=
  match p with
  | .None =>
      let values := relation.data.tuples.dedup
      let derived0 : Relation :=
        { name := "derived", pk := relation.pk, schema := relation.schema,
          data := if relation.pk.isSome then Data.WithPK [] else Data.NoPK 0 [] }
      match derived0.insert_rows values with
      | none => none
      | some bd => some (some bd.2)
  | .Attr _ _ =>
      let attrs := p.toList
      if !(attrs.all fun a => decide (a ∈ relation.schema.attributes)) then
        some none
      else
        match optionMap (fun a => position (fun x => decide (x = a)) relation.schema.attributes)
            attrs with
        | none => none
        | some selected =>
            match relation.pk with
            | none => none
            | some pkIdx =>
                let pkMissing := !(decide (pkIdx ∈ selected))
                let values := (relation.data.tuples.map (projectRow selected)).dedup
                if pkMissing then
                  let derived0 : Relation :=
                    { name := "derived", pk := none,
                      schema := { attributes := attrs }, data := Data.NoPK 0 [] }
                  match derived0.insert_rows values with
                  | none => none
                  | some bd => some (some bd.2)
                else
                  let derived0 : Relation :=
                    { name := "derived", pk := relation.pk,
                      schema := { attributes := attrs }, data := Data.WithPK [] }
                  match derived0.insert_rows values with
                  | none => none
                  | some bd => some (some bd.2)

/-- `enum BinaryOpr {}` (uninhabited). -/
inductive BinaryOpr where
deriving DecidableEq

/-- `enum UnaryOpr` (the relation reference is modelled by value). -/
inductive UnaryOpr where
  | Selection : SelPredicate → Relation → UnaryOpr
  | Projection : ProjAttrs → Relation → UnaryOpr

/-- `UnaryOpr::evaluate`. -/
def UnaryOpr.evaluate : UnaryOpr → Option (Option Relation)
  | .Projection p r => p.execute r
  | .Selection _ _ => some none

/-- `enum Operator`. -/
inductive Operator where
  | Unary : UnaryOpr → Operator
  | Binary : BinaryOpr → Operator

/-- `Operator::evaluate`. -/
def Operator.evaluate : Operator → Option (Option Relation)
  | .Unary opr => opr.evaluate
  | .Binary _ => some none

/-- A relation with its storage replaced (the record update `{ rel with
data := d }` used by the insert protocol). -/
def withData (rel : Relation) (d : Data) : Relation :=
  { rel with data := d }

/-- The fresh empty derived relation built by select-all projection
(storage representation chosen by the source's primary-key presence). -/
def selectAllFresh (rel : Relation) : Relation :=
  { name := "derived", pk := rel.pk, schema := rel.schema,
    data := if rel.pk.isSome then Data.WithPK [] else Data.NoPK 0 [] }

/-- Surrogate entries `(c, r0), (c+1, r1), …` as produced by consecutive
`NoPK` inserts starting at counter `c`. -/
def tagFrom (c : I32) : List Row → List (I32 × Row)
  | [] => []
  | r :: rs => (c, r) :: tagFrom (c + 1) rs

/-! Concrete instances used by witnesses and counterexamples. -/

def c1AttrA : Attribute := { name := "a", atype := Ty.Int }

def c1AttrB : Attribute := { name := "b", atype := Ty.Int }

def c1Rel : Relation :=
  { name := "t", pk := some 1, schema := { attributes := [c1AttrA, c1AttrB] },
    data := Data.WithPK [(Value.Int 1, [Value.Int 10, Value.Int 1])] }

def c1Proj : ProjAttrs := ProjAttrs.Attr c1AttrB (some (ProjAttrs.Attr c1AttrA none))

def c1Derived : Relation :=
  { name := "derived", pk := some 1, schema := { attributes := [c1AttrB, c1AttrA] },
    data := Data.WithPK [(Value.Int 1, [Value.Int 10, Value.Int 1])] }

def c2AttrX : Attribute := { name := "x", atype := Ty.Str }

def c2AttrY : Attribute := { name := "y", atype := Ty.Str }

def c2Rel : Relation :=
  { name := "t", pk := some 0, schema := { attributes := [c2AttrX, c2AttrY] },
    data := Data.WithPK [(Value.Str "a", [Value.Str "a", Value.Str "b"])] }

def c2Proj : ProjAttrs := ProjAttrs.Attr c2AttrY (some (ProjAttrs.Attr c2AttrX none))

def c2Derived : Relation :=
  { name := "derived", pk := some 0, schema := { attributes := [c2AttrY, c2AttrX] },
    data := Data.WithPK [(Value.Str "a", [Value.Str "a", Value.Str "b"])] }

def c3Attr : Attribute := { name := "x", atype := Ty.Str }

def c3Rel : Relation :=
  { name := "t", pk := none, schema := { attributes := [c3Attr] }, data := Data.NoPK 0 [] }

def c4Rel : Relation :=
  { name := "t", pk := some 0, schema := { attributes := [{ name := "key", atype := Ty.Int }] },
    data := Data.WithPK [] }

def c6Rel : Relation :=
  { name := "test", pk := some 0,
    schema :=
      { attributes := [{ name := "key", atype := Ty.Int }, { name := "value", atype := Ty.Str }] },
    data := Data.WithPK [] }

def c7Rel : Relation :=
  { name := "test", pk := some 0, schema := { attributes := [{ name := "key", atype := Ty.Int }] },
    data := Data.WithPK [(Value.Int 1, [Value.Int 1])] }

def c7Proj : ProjAttrs := ProjAttrs.Attr { name := "zzz", atype := Ty.Str } none

def c8AttrId : Attribute := { name := "id", atype := Ty.Int }

def c8AttrName : Attribute := { name := "name", atype := Ty.Str }

def c8AttrPhone : Attribute := { name := "phone", atype := Ty.Int }

def c8Rel : Relation :=
  { name := "users", pk := some 0, schema := { attributes := [c8AttrId, c8AttrName, c8AttrPhone] },
    data := Data.WithPK [(Value.Int 1, [Value.Int 1, Value.Str "bob", Value.Int 7])] }

def c8Proj : ProjAttrs := ProjAttrs.Attr c8AttrPhone (some (ProjAttrs.Attr c8AttrName none))

def c8wProj : ProjAttrs := ProjAttrs.Attr c8AttrName (some (ProjAttrs.Attr c8AttrPhone none))

def c9Rel : Relation :=
  { name := "t", pk := some 0,
    schema :=
      { attributes := [{ name := "key", atype := Ty.Int }, { name := "value", atype := Ty.Str }] },
    data := Data.WithPK
      [(Value.Int 1, [Value.Int 1, Value.Str "foo"]), (Value.Int 2, [Value.Int 2, Value.Str "bar"])] }

def c9D1 : Relation :=
  { name := "derived", pk := some 0,
    schema :=
      { attributes := [{ name := "key", atype := Ty.Int }, { name := "value", atype := Ty.Str }] },
    data := Data.WithPK
      [(Value.Int 1, [Value.Int 1, Value.Str "foo"]), (Value.Int 2, [Value.Int 2, Value.Str "bar"])] }

def c10Attr : Attribute := { name := "value", atype := Ty.Str }

def c10Rel : Relation :=
  { name := "t", pk := some 0,
    schema := { attributes := [{ name := "id", atype := Ty.Int }, c10Attr] },
    data := Data.WithPK [(Value.Int 1, [Value.Int 1, Value.Str "foo"])] }

def c10Proj : ProjAttrs := ProjAttrs.Attr c10Attr (some (ProjAttrs.Attr c10Attr none))

def c10NoPkRel : Relation :=
  { name := "t", pk := none, schema := { attributes := [c10Attr] },
    data := Data.NoPK 0 [(0, [Value.Str "foo"])] }

/-! Supporting lemmas. -/

theorem zip_all_tyMatches_iff (as : List Attribute) (r : Row) :
    ((as.zip r).all fun ab => tyMatches ab.1.atype ab.2) = true ↔
      ∀ i (hr : i < r.length) (hs : i < as.length),
        tyMatches (as.get ⟨i, hs⟩).atype (r.get ⟨i, hr⟩) = true := by
  induction as generalizing r with
  | nil => simp
  | cons a as ih =>
    cases r with
    | nil => simp
    | cons v r =>
      simp only [List.zip_cons_cons, List.all_cons, Bool.and_eq_true, ih]
      constructor
      · rintro ⟨h0, hrest⟩ i hr hs
        cases i with
        | zero => simpa using h0
        | succ n =>
          simpa using hrest n (Nat.lt_of_succ_lt_succ hr) (Nat.lt_of_succ_lt_succ hs)
      · intro h
        refine ⟨by simpa using h 0 (Nat.succ_pos _) (Nat.succ_pos _), fun n hr hs => ?_⟩
        simpa using h (n + 1) (Nat.succ_lt_succ hr) (Nat.succ_lt_succ hs)

theorem validate_row_iff_aux (s : Schema) (r : Row) :
    s.validate_row r = true ↔
      (r.length = s.attributes.length ∧
        ∀ i (hr : i < r.length) (hs : i < s.attributes.length),
          tyMatches (s.attributes.get ⟨i, hs⟩).atype (r.get ⟨i, hr⟩) = true) := by
  unfold Schema.validate_row
  by_cases hl : r.length = s.attributes.length
  · rw [if_neg (by simp [hl])]
    rw [zip_all_tyMatches_iff]
    exact ⟨fun h => ⟨hl, h⟩, fun h => h.2⟩
  · rw [if_pos hl]
    simp [hl]

theorem optionMap_forall₂ (f : α → Option β) (l : List α) (ys : List β)
    (h : optionMap f l = some ys) : List.Forall₂ (fun a b => f a = some b) l ys := by
  induction l generalizing ys with
  | nil =>
    simp only [optionMap, Option.some.injEq] at h
    subst h
    exact List.Forall₂.nil
  | cons a l ih =>
    simp only [optionMap] at h
    rcases Option.bind_eq_some.mp h with ⟨b, hfa, hmap⟩
    rcases Option.map_eq_some'.mp hmap with ⟨bs, hrest, hcons⟩
    subst hcons
    exact List.Forall₂.cons hfa (ih bs hrest)

theorem optionMap_isSome_of_forall (f : α → Option β) (l : List α)
    (h : ∀ a ∈ l, (f a).isSome = true) : ∃ ys, optionMap f l = some ys := by
  induction l with
  | nil => exact ⟨[], rfl⟩
  | cons a l ih =>
    rcases ih (fun x hx => h x (List.mem_cons_of_mem _ hx)) with ⟨ys, hys⟩
    rcases Option.isSome_iff_exists.mp (h a (List.mem_cons_self _ _)) with ⟨b, hb⟩
    exact ⟨b :: ys, by simp [optionMap, hb, hys]⟩

theorem optionMap_eq_map (f : α → Option β) (l : List α) (ys : List β) (d : β)
    (h : optionMap f l = some ys) : ys = l.map fun a => (f a).getD d := by
  induction l generalizing ys with
  | nil =>
    simp only [optionMap, Option.some.injEq] at h
    subst h
    rfl
  | cons a l ih =>
    simp only [optionMap] at h
    rcases Option.bind_eq_some.mp h with ⟨b, hfa, hmap⟩
    rcases Option.map_eq_some'.mp hmap with ⟨bs, hrest, hcons⟩
    subst hcons
    simp [List.map_cons, hfa, ← ih bs hrest]

theorem optionMap_eq_filterMap (f : α → Option β) (l : List α) (ys : List β)
    (h : optionMap f l = some ys) : l.filterMap f = ys := by
  induction l generalizing ys with
  | nil =>
    simp only [optionMap, Option.some.injEq] at h
    subst h
    rfl
  | cons a l ih =>
    simp only [optionMap] at h
    rcases Option.bind_eq_some.mp h with ⟨b, hfa, hmap⟩
    rcases Option.map_eq_some'.mp hmap with ⟨bs, hrest, hcons⟩
    subst hcons
    simp [List.filterMap_cons, hfa, ih bs hrest]

theorem optionMap_length (f : α → Option β) (l : List α) (ys : List β)
    (h : optionMap f l = some ys) : ys.length = l.length :=
  (optionMap_forall₂ f l ys h).length_eq.symm

theorem position_isSome_of_mem [DecidableEq α] (a : α) (l : List α) (h : a ∈ l) :
    (position (fun x => decide (x = a)) l).isSome = true := by
  induction l with
  | nil => simp at h
  | cons b l ih =>
    simp only [position]
    by_cases hb : b = a
    · simp [hb]
    · rw [if_neg (by simpa using hb)]
      rcases List.mem_cons.mp h with h1 | h2
      · exact absurd h1.symm hb
      · have := ih h2
        cases hp : position (fun x => decide (x = a)) l with
        | none => rw [hp] at this; simp at this
        | some j => simp

theorem position_spec (p : α → Bool) (l : List α) (j : Nat)
    (h : position p l = some j) : ∃ hj : j < l.length, p (l.get ⟨j, hj⟩) = true := by
  induction l generalizing j with
  | nil => simp [position] at h
  | cons b l ih =>
    simp only [position] at h
    by_cases hb : p b = true
    · rw [if_pos hb] at h
      cases h
      exact ⟨Nat.succ_pos _, hb⟩
    · rw [if_neg hb] at h
      rcases Option.map_eq_some'.mp h with ⟨j0, hj0, hjj⟩
      subst hjj
      rcases ih j0 hj0 with ⟨hlt, hp⟩
      exact ⟨Nat.succ_lt_succ hlt, by simpa using hp⟩

theorem position_eq_of_nodup [DecidableEq α] (l : List α) (i : Nat) (hi : i < l.length)
    (hnd : l.Nodup) : position (fun x => decide (x = l.get ⟨i, hi⟩)) l = some i := by
  induction l generalizing i with
  | nil => simp at hi
  | cons b l ih =>
    cases i with
    | zero => simp [position]
    | succ n =>
      have hn : n < l.length := Nat.lt_of_succ_lt_succ hi
      have hbne : b ≠ l.get ⟨n, hn⟩ := by
        intro heq
        exact (List.nodup_cons.mp hnd).1 (heq ▸ List.get_mem l n hn)
      simp only [position, List.get_cons_succ]
      rw [if_neg (by simpa using hbne)]
      rw [ih n hn (List.nodup_cons.mp hnd).2]
      simp

theorem execute_attr_eq (a0 : Attribute) (rest : Option ProjAttrs) (rel : Relation) :
    (ProjAttrs.Attr a0 rest).execute rel =
      (let attrs := (ProjAttrs.Attr a0 rest).toList
       if !(attrs.all fun a => decide (a ∈ rel.schema.attributes)) then
         some none
       else
         match optionMap (fun a => position (fun x => decide (x = a)) rel.schema.attributes)
             attrs with
         | none => none
         | some selected =>
             match rel.pk with
             | none => none
             | some pkIdx =>
                 let pkMissing := !(decide (pkIdx ∈ selected))
                 let values := (rel.data.tuples.map (projectRow selected)).dedup
                 if pkMissing then
                   let derived0 : Relation :=
                     { name := "derived", pk := none,
                       schema := { attributes := attrs }, data := Data.NoPK 0 [] }
                   match derived0.insert_rows values with
                   | none => none
                   | some bd => some (some bd.2)
                 else
                   let derived0 : Relation :=
                     { name := "derived", pk := rel.pk,
                       schema := { attributes := attrs }, data := Data.WithPK [] }
                   match derived0.insert_rows values with
                   | none => none
                   | some bd => some (some bd.2)) := rfl

theorem contains_withPK_iff (m : List (Value × Row)) (k : Value) :
    (Data.WithPK m).contains (some k) none = true ↔ k ∈ m.map Prod.fst := by
  simp only [Data.contains, List.any_eq_true, List.mem_map, decide_eq_true_eq]

/-! Claim theorems and their witnesses. -/

/-- C5: for any schema S and row R, validate_row(S, R) is true iff the
length of R equals the number of attributes of S and at every position the
value variant matches the schema's type tag (Str with Str, Int with Int);
any arity or type mismatch yields false, with no coercion. -/
theorem validate_row_spec (s : Schema) (r : Row) :
    s.validate_row r = true ↔
      (r.length = s.attributes.length ∧
        ∀ i (hr : i < r.length) (hs : i < s.attributes.length),
          tyMatches (s.attributes.get ⟨i, hs⟩).atype (r.get ⟨i, hr⟩) = true) :=
  validate_row_iff_aux s r

/-- C4: insert_rows is an atomic check-then-commit batch: whenever the call
returns false (failed validation, duplicate key inside the batch, or a key
already present in storage) the returned relation is the unchanged input,
so the stored tuple set is identical to the one before the call. -/
theorem insert_rows_atomic (rel : Relation) (rows : List Row) (rel2 : Relation)
    (h : rel.insert_rows rows = some (false, rel2)) : rel2 = rel := by
  unfold Relation.insert_rows at h
  split at h
  · injection h with h
    injection h with h1 h2
    exact h2.symm
  · split at h
    · injection h with h
      injection h with h1 h2
      exact Bool.noConfusion h1
    · split at h
      · exact Option.noConfusion h
      · split at h
        · injection h with h
          injection h with h1 h2
          exact h2.symm
        · split at h
          · injection h with h
            injection h with h1 h2
            exact h2.symm
          · injection h with h
            injection h with h1 h2
            exact Bool.noConfusion h1

/-- C4 witness: a batch with a repeated primary-key value is rejected and
the keyed relation comes back unchanged. -/
theorem insert_rows_atomic_w :
    c4Rel.insert_rows [[Value.Int 1], [Value.Int 1]] = some (false, c4Rel) ∧ c4Rel = c4Rel :=
  ⟨by decide, insert_rows_atomic c4Rel [[Value.Int 1], [Value.Int 1]] c4Rel (by decide)⟩

/-- C3 (code bug): evaluating a Projection operator with an explicit
attribute list over a relation with no declared primary key panics
(`Option::unwrap` on `None`), because the source combines
`relation.pk.is_some()` with `!indices.contains(&relation.pk.unwrap())`
using the non-short-circuiting `&` operator; the spec requires every
failure of these entry points to be a boolean/optional result, never an
unwind. -/
theorem operator_evaluate_explicit_nopk_panics :
    (Operator.Unary (UnaryOpr.Projection (ProjAttrs.Attr c3Attr none) c3Rel)).evaluate = none := by
  rfl

/-- C7: an explicit projection that requests an attribute absent from the
source schema (matched by name and type) produces no result — Rust `None`,
embedded as `some none`, distinct from an empty relation — and cannot
panic, because the membership check precedes every unwrap. -/
theorem projection_unknown_attr_none (p : ProjAttrs) (rel : Relation) (a : Attribute)
    (hmem : a ∈ p.toList) (hmiss : a ∉ rel.schema.attributes) :
    p.execute rel = some none := by
  cases p with
  | None => simp [ProjAttrs.toList] at hmem
  | Attr a0 rest =>
    have hall : ¬ ((ProjAttrs.Attr a0 rest).toList.all fun x =>
        decide (x ∈ rel.schema.attributes)) = true := by
      rw [List.all_eq_true]
      intro hforall
      exact hmiss (by simpa using hforall a hmem)
    have hfalse : ((ProjAttrs.Attr a0 rest).toList.all fun x =>
        decide (x ∈ rel.schema.attributes)) = false := Bool.eq_false_iff.mpr hall
    rw [execute_attr_eq]
    simp only [hfalse]
    rfl

theorem mapInsert_perm (k : Value) (v : Row) (m : List (Value × Row))
    (hk : k ∉ m.map Prod.fst) : (mapInsert k v m).Perm ((k, v) :: m) := by
  induction m with
  | nil => exact List.Perm.refl _
  | cons e rest ih =>
    have hk1 : k ≠ e.1 := fun h => hk (by simp [h])
    have hk2 : k ∉ rest.map Prod.fst := fun h => hk (by simp [h])
    simp only [mapInsert]
    rw [if_neg hk1]
    by_cases hlt : Value.lt k e.1 = true
    · rw [if_pos hlt]
    · rw [if_neg hlt]
      exact (List.Perm.cons e (ih hk2)).trans (List.Perm.swap (k, v) e rest)

theorem foldl_mapInsert_perm (pairs : List (Row × Value)) :
    ∀ (m : List (Value × Row)), (pairs.map Prod.snd).Nodup →
      (∀ x ∈ pairs.map Prod.snd, x ∉ m.map Prod.fst) →
      (pairs.foldl (fun mm rk => mapInsert rk.2 rk.1 mm) m).Perm
        ((pairs.map fun rk => (rk.2, rk.1)) ++ m) := by
  induction pairs with
  | nil =>
    intro m _ _
    simp
  | cons rk rest ih =>
    intro m hnd hdisj
    have hkfresh : rk.2 ∉ m.map Prod.fst := hdisj rk.2 (by simp)
    have hperm1 : (mapInsert rk.2 rk.1 m).Perm ((rk.2, rk.1) :: m) :=
      mapInsert_perm _ _ _ hkfresh
    have hnd0 : rk.2 ∉ rest.map Prod.snd := (List.nodup_cons.mp (by simpa using hnd)).1
    have hnd2 : (rest.map Prod.snd).Nodup := (List.nodup_cons.mp (by simpa using hnd)).2
    have hdisj2 : ∀ x ∈ rest.map Prod.snd, x ∉ (mapInsert rk.2 rk.1 m).map Prod.fst := by
      intro x hx hmem
      have hx2 : x ∈ ((rk.2, rk.1) :: m).map Prod.fst := (hperm1.map Prod.fst).mem_iff.mp hmem
      simp only [List.map_cons, List.mem_cons] at hx2
      rcases hx2 with h | h
      · exact hnd0 (h ▸ hx)
      · exact hdisj x (by simpa using Or.inr hx) h
    have ih2 := ih (mapInsert rk.2 rk.1 m) hnd2 hdisj2
    simp only [List.foldl_cons, List.map_cons]
    refine ih2.trans ?_
    refine (List.Perm.append_left _ hperm1).trans ?_
    exact List.perm_middle

theorem foldl_data_insert_withPK (pairs : List (Row × Value)) (m : List (Value × Row)) :
    pairs.foldl (fun d rk => (d.insert (some rk.2) rk.1).2) (Data.WithPK m) =
      Data.WithPK (pairs.foldl (fun mm rk => mapInsert rk.2 rk.1 mm) m) := by
  induction pairs generalizing m with
  | nil => rfl
  | cons rk rest ih =>
    simp only [List.foldl_cons, Data.insert]
    exact ih _

theorem mapInsertI_append (k : I32) (v : Row) (m : List (I32 × Row))
    (hk : ∀ x ∈ m.map Prod.fst, x < k) : mapInsertI k v m = m ++ [(k, v)] := by
  induction m with
  | nil => rfl
  | cons e rest ih =>
    have he : e.1 < k := hk e.1 (by simp)
    simp only [mapInsertI]
    rw [if_neg (by intro h; rw [h] at he; exact lt_irrefl _ he)]
    rw [if_neg (by simpa using not_lt.mpr (le_of_lt he))]
    rw [ih (fun x hx => hk x (by simpa using Or.inr hx))]
    rfl

theorem tagFrom_map_snd (c : I32) (rows : List Row) : (tagFrom c rows).map Prod.snd = rows := by
  induction rows generalizing c with
  | nil => rfl
  | cons r rest ih => simp [tagFrom, ih]

theorem tagFrom_map_fst (c : I32) (rows : List Row) :
    (tagFrom c rows).map Prod.fst = (List.range rows.length).map fun j => c + Int.ofNat j := by
  induction rows generalizing c with
  | nil => rfl
  | cons r rest ih =>
    have h1 : (tagFrom c (r :: rest)).map Prod.fst =
        c :: ((List.range rest.length).map fun j => (c + 1) + Int.ofNat j) := by
      simp [tagFrom, ih (c + 1)]
    rw [h1, List.length_cons, List.range_succ_eq_map, List.map_cons, List.map_map]
    have hfun : ((fun j : Nat => c + Int.ofNat j) ∘ Nat.succ) =
        fun j : Nat => (c + 1) + Int.ofNat j := by
      funext j
      simp only [Function.comp, Int.ofNat_eq_natCast, Nat.succ_eq_add_one]
      push_cast
      ring
    rw [hfun]
    simp

theorem foldl_data_insert_noPK (rows : List Row) :
    ∀ (c : I32) (m : List (I32 × Row)), (∀ x ∈ m.map Prod.fst, x < c) →
      rows.foldl (fun d r => (d.insert none r).2) (Data.NoPK c m) =
        Data.NoPK (c + rows.length) (m ++ tagFrom c rows) := by
  induction rows with
  | nil =>
    intro c m _
    simp [tagFrom]
  | cons r rest ih =>
    intro c m hm
    rw [List.foldl_cons]
    show List.foldl _ ((Data.NoPK c m).insert none r).2 rest = _
    rw [show ((Data.NoPK c m).insert none r).2 = Data.NoPK (c + 1) (mapInsertI c r m) from rfl]
    rw [mapInsertI_append c r m hm]
    have hm2 : ∀ x ∈ (m ++ [(c, r)]).map Prod.fst, x < c + 1 := by
      intro x hx
      simp only [List.map_append, List.mem_append, List.map_cons, List.map_nil,
        List.mem_singleton] at hx
      rcases hx with h | h
      · exact lt_trans (hm x h) (lt_add_one c)
      · rw [h]
        exact lt_add_one c
    rw [ih (c + 1) (m ++ [(c, r)]) hm2]
    congr 1
    · simp only [List.length_cons]
      push_cast
      ring
    · simp [tagFrom, List.append_assoc]

/-- C6: inserting a schema-valid row whose key value is unused into a keyed
relation succeeds, and the storage then holds exactly one entry at that
key (the inserted row); any subsequent insert_row whose row carries the
same key value returns false and leaves the relation untouched. -/
theorem insert_row_fresh_key (rel : Relation) (i : Nat) (m : List (Value × Row)) (row : Row)
    (hi : i < row.length)
    (hpk : rel.pk = some i)
    (hdata : rel.data = Data.WithPK m)
    (hvalid : rel.schema.validate_row row = true)
    (hfresh : row.get ⟨i, hi⟩ ∉ m.map Prod.fst) :
    rel.insert_row row =
      some (true, withData rel (Data.WithPK (mapInsert (row.get ⟨i, hi⟩) row m))) ∧
    (mapInsert (row.get ⟨i, hi⟩) row m).filter
        (fun e => decide (e.1 = row.get ⟨i, hi⟩)) = [(row.get ⟨i, hi⟩, row)] ∧
    ∀ (row2 : Row) (h2 : i < row2.length), row2.get ⟨i, h2⟩ = row.get ⟨i, hi⟩ →
      (withData rel (Data.WithPK (mapInsert (row.get ⟨i, hi⟩) row m))).insert_row row2 =
        some (false, withData rel (Data.WithPK (mapInsert (row.get ⟨i, hi⟩) row m))) := by
  have hcf : rel.data.contains (some (row.get ⟨i, hi⟩)) none = false := by
    rw [hdata]
    rw [Bool.eq_false_iff]
    intro hc
    exact hfresh ((contains_withPK_iff m _).mp hc)
  have hfilter : (mapInsert (row.get ⟨i, hi⟩) row m).filter
      (fun e => decide (e.1 = row.get ⟨i, hi⟩)) = [(row.get ⟨i, hi⟩, row)] := by
    have hp1 : ((mapInsert (row.get ⟨i, hi⟩) row m).filter
        (fun e => decide (e.1 = row.get ⟨i, hi⟩))).Perm
          (((row.get ⟨i, hi⟩, row) :: m).filter (fun e => decide (e.1 = row.get ⟨i, hi⟩))) :=
      (mapInsert_perm _ _ _ hfresh).filter _
    have hmf : m.filter (fun e => decide (e.1 = row.get ⟨i, hi⟩)) = [] := by
      rw [List.filter_eq_nil_iff]
      intro e he hce
      exact hfresh (by
        have he2 : e.1 = row.get ⟨i, hi⟩ := by simpa using hce
        exact he2 ▸ List.mem_map_of_mem Prod.fst he)
    rw [List.filter_cons, if_pos (by simp), hmf] at hp1
    exact List.perm_singleton.mp hp1
  have hcf2 : (Data.WithPK m).contains (some (row.get ⟨i, hi⟩)) none = false := hdata ▸ hcf
  refine ⟨?_, hfilter, ?_⟩
  · simp only [Relation.insert_row, hvalid, Bool.not_true, Bool.false_eq_true, if_false,
      ite_false, hpk, idx, List.get?_eq_get hi, hdata, hcf2, Data.insert, withData]
  · intro row2 h2 heq
    have hck : (Data.WithPK (mapInsert (row.get ⟨i, hi⟩) row m)).contains
        (some (row.get ⟨i, hi⟩)) none = true := by
      rw [contains_withPK_iff]
      have hm : (row.get ⟨i, hi⟩, row) ∈ mapInsert (row.get ⟨i, hi⟩) row m :=
        List.mem_of_mem_filter (hfilter ▸ List.mem_singleton_self _)
      exact List.mem_map_of_mem Prod.fst hm
    by_cases hv2 : rel.schema.validate_row row2 = true
    · simp only [Relation.insert_row, withData, hv2, Bool.not_true, Bool.false_eq_true,
        if_false, ite_false, hpk, idx, List.get?_eq_get h2, heq, hck, if_true, ite_true]
    · simp only [Relation.insert_row, withData, Bool.eq_false_iff.mpr hv2, Bool.not_false,
        if_true, ite_true]

theorem optionMap_mem_isSome (f : α → Option β) (l : List α) (ys : List β)
    (h : optionMap f l = some ys) : ∀ a ∈ l, (f a).isSome = true := by
  induction l generalizing ys with
  | nil => simp
  | cons a l ih =>
    simp only [optionMap] at h
    rcases Option.bind_eq_some.mp h with ⟨b, hfa, hmap⟩
    rcases Option.map_eq_some'.mp hmap with ⟨bs, hrest, _⟩
    intro x hx
    rcases List.mem_cons.mp hx with h1 | h2
    · rw [h1, hfa]
      rfl
    · exact ih bs hrest x h2

theorem insert_rows_fresh_noPK_success (rel0 : Relation) (rows : List Row)
    (hpk : rel0.pk = none) (hdata : rel0.data = Data.NoPK 0 [])
    (hval : (rows.all fun r => rel0.schema.validate_row r) = true) :
    rel0.insert_rows rows =
      some (true, withData rel0 (Data.NoPK rows.length (tagFrom 0 rows))) := by
  simp only [Relation.insert_rows, hval, Bool.not_true, Bool.false_eq_true, if_false,
    ite_false, hpk, hdata]
  rw [foldl_data_insert_noPK rows 0 [] (by simp)]
  simp [withData, hpk]

theorem insert_rows_fresh_withPK_success (rel0 : Relation) (i : Nat) (rows : List Row)
    (keys : List Value)
    (hpk : rel0.pk = some i) (hdata : rel0.data = Data.WithPK [])
    (hval : (rows.all fun r => rel0.schema.validate_row r) = true)
    (hkeys : optionMap (fun r => idx r i) rows = some keys)
    (hnd : keys.Nodup) :
    ∃ mm, rel0.insert_rows rows = some (true, withData rel0 (Data.WithPK mm)) ∧
      mm.Perm ((rows.zip keys).map fun rk => (rk.2, rk.1)) := by
  have hlen : keys.length = rows.length := optionMap_length _ _ _ hkeys
  have hdedup : keys.dedup.length = rows.length := by
    rw [List.dedup_eq_self.mpr hnd, hlen]
  have hcont : (keys.all fun k => !(rel0.data.contains (some k) none)) = true := by
    rw [List.all_eq_true]
    intro k _
    simp [hdata, Data.contains]
  have hsndzip : ((rows.zip keys).map Prod.snd) = keys :=
    List.map_snd_zip rows keys (le_of_eq hlen)
  refine ⟨(rows.zip keys).foldl (fun a rk => mapInsert rk.2 rk.1 a) [], ?_, ?_⟩
  · simp only [Relation.insert_rows, hval, Bool.not_true, Bool.false_eq_true, if_false,
      ite_false, hpk, hkeys]
    rw [if_neg (by simp [hdedup])]
    rw [if_neg (by simp [hcont])]
    rw [hdata, foldl_data_insert_withPK]
    simp [withData, hpk]
  · have hperm := foldl_mapInsert_perm (rows.zip keys) []
      (by rw [hsndzip]; exact hnd)
      (by intro x _ hx; simp at hx)
    simpa using hperm

theorem insert_rows_fresh_noPK_cases (rel0 : Relation) (rows : List Row) (b : Bool)
    (d : Relation) (hpk : rel0.pk = none) (hdata : rel0.data = Data.NoPK 0 [])
    (h : rel0.insert_rows rows = some (b, d)) :
    (b = false ∧ d = rel0) ∨
    (b = true ∧ (rows.all fun r => rel0.schema.validate_row r) = true ∧
      d = withData rel0 (Data.NoPK rows.length (tagFrom 0 rows))) := by
  by_cases hval : (rows.all fun r => rel0.schema.validate_row r) = true
  · right
    rw [insert_rows_fresh_noPK_success rel0 rows hpk hdata hval] at h
    injection h with h
    injection h with hb hd
    exact ⟨hb.symm, hval, hd.symm⟩
  · left
    have hvf : (rows.all fun r => rel0.schema.validate_row r) = false :=
      Bool.eq_false_iff.mpr hval
    have hres : rel0.insert_rows rows = some (false, rel0) := by
      simp only [Relation.insert_rows, hvf, Bool.not_false, if_true, ite_true]
    rw [hres] at h
    injection h with h
    injection h with hb hd
    exact ⟨hb.symm, hd.symm⟩

theorem insert_rows_fresh_withPK_cases (rel0 : Relation) (i : Nat) (rows : List Row) (b : Bool)
    (d : Relation) (hpk : rel0.pk = some i) (hdata : rel0.data = Data.WithPK [])
    (h : rel0.insert_rows rows = some (b, d)) :
    (b = false ∧ d = rel0) ∨
    (b = true ∧ (rows.all fun r => rel0.schema.validate_row r) = true ∧
      ∃ keys, optionMap (fun r => idx r i) rows = some keys ∧ keys.Nodup ∧
        (∃ mm, d = withData rel0 (Data.WithPK mm)) ∧ d.data.tuples.Perm rows) := by
  by_cases hval : (rows.all fun r => rel0.schema.validate_row r) = true
  · cases hkeys : optionMap (fun r => idx r i) rows with
    | none =>
      have hres : rel0.insert_rows rows = none := by
        simp only [Relation.insert_rows, hval, Bool.not_true, Bool.false_eq_true, if_false,
          ite_false, hpk, hkeys]
      rw [hres] at h
      exact Option.noConfusion h
    | some keys =>
      by_cases hdl : keys.dedup.length = rows.length
      · have hndk : keys.Nodup := by
          have hlen := optionMap_length _ _ _ hkeys
          have hsub : keys.dedup.Sublist keys := List.dedup_sublist keys
          have hde : keys.dedup = keys := hsub.eq_of_length (by rw [hdl, hlen])
          rw [← hde]
          exact List.nodup_dedup keys
        obtain ⟨mm, hsucc, hperm⟩ :=
          insert_rows_fresh_withPK_success rel0 i rows keys hpk hdata hval hkeys hndk
        rw [hsucc] at h
        injection h with h
        injection h with hb hd
        have htup : d.data.tuples.Perm rows := by
          rw [← hd]
          show (Data.WithPK mm).tuples.Perm rows
          have h2 : (Data.WithPK mm).tuples = mm.map Prod.snd := rfl
          rw [h2]
          refine (hperm.map Prod.snd).trans ?_
          rw [List.map_map]
          have hcomp : (Prod.snd ∘ fun rk : Row × Value => (rk.2, rk.1)) = Prod.fst := rfl
          rw [hcomp]
          rw [List.map_fst_zip rows keys (le_of_eq (optionMap_length _ _ _ hkeys).symm)]
        exact Or.inr ⟨hb.symm, hval, ⟨keys, rfl, hndk, ⟨mm, hd.symm⟩, htup⟩⟩
      · have hres : rel0.insert_rows rows = some (false, rel0) := by
          simp only [Relation.insert_rows, hval, Bool.not_true, Bool.false_eq_true, if_false,
            ite_false, hpk, hkeys]
          rw [if_pos hdl]
        rw [hres] at h
        injection h with h
        injection h with hb hd
        exact Or.inl ⟨hb.symm, hd.symm⟩
  · have hvf : (rows.all fun r => rel0.schema.validate_row r) = false :=
      Bool.eq_false_iff.mpr hval
    have hres : rel0.insert_rows rows = some (false, rel0) := by
      simp only [Relation.insert_rows, hvf, Bool.not_false, if_true, ite_true]
    rw [hres] at h
    injection h with h
    injection h with hb hd
    exact Or.inl ⟨hb.symm, hd.symm⟩

theorem withPK_fold_tuples_perm (rows : List Row) (keys : List Value) (mm : List (Value × Row))
    (hlen : keys.length = rows.length)
    (hperm : mm.Perm ((rows.zip keys).map fun rk => (rk.2, rk.1))) :
    (mm.map Prod.snd).Perm rows := by
  refine (hperm.map Prod.snd).trans ?_
  rw [List.map_map]
  have hcomp : (Prod.snd ∘ fun rk : Row × Value => (rk.2, rk.1)) = Prod.fst := rfl
  rw [hcomp]
  rw [List.map_fst_zip rows keys (le_of_eq hlen.symm)]

theorem execute_none_eq (rel : Relation) :
    ProjAttrs.None.execute rel =
      (match (selectAllFresh rel).insert_rows rel.data.tuples.dedup with
       | none => none
       | some bd => some (some bd.2)) := rfl

theorem execute_none_insert_rows (rel d : Relation)
    (h : ProjAttrs.None.execute rel = some (some d)) :
    ∃ b, (selectAllFresh rel).insert_rows rel.data.tuples.dedup = some (b, d) := by
  rw [execute_none_eq] at h
  cases hins : (selectAllFresh rel).insert_rows rel.data.tuples.dedup with
  | none =>
    rw [hins] at h
    exact Option.noConfusion h
  | some bd =>
    rw [hins] at h
    injection h with h
    injection h with h2
    exact ⟨bd.1, by rw [← h2]⟩

theorem selectall_of_empty (d1 d2 : Relation) (hemp : d1.data.tuples = [])
    (h2 : ProjAttrs.None.execute d1 = some (some d2)) : d2.data.tuples = [] := by
  obtain ⟨b2, hins2⟩ := execute_none_insert_rows d1 d2 h2
  rw [hemp] at hins2
  simp only [List.dedup_nil] at hins2
  cases hpk : d1.pk with
  | none =>
    have hsucc := insert_rows_fresh_noPK_success (selectAllFresh d1) []
      (by simp [selectAllFresh, hpk]) (by simp [selectAllFresh, hpk]) (by simp)
    rw [hsucc] at hins2
    injection hins2 with hins2
    injection hins2 with hb hd
    rw [← hd]
    simp [withData, Data.tuples, tagFrom]
  | some i =>
    obtain ⟨mm, hs, hperm⟩ := insert_rows_fresh_withPK_success (selectAllFresh d1) i [] []
      (by simp [selectAllFresh, hpk]) (by simp [selectAllFresh, hpk]) (by simp) rfl (by simp)
    rw [hs] at hins2
    injection hins2 with hins2
    injection hins2 with hb hd
    rw [← hd]
    have hmm : mm = [] := List.perm_nil.mp (by simpa using hperm)
    simp [withData, Data.tuples, hmm]

theorem insert_rows_invalid (rel0 : Relation) (rows : List Row)
    (h : (rows.all fun r => rel0.schema.validate_row r) = false) :
    rel0.insert_rows rows = some (false, rel0) := by
  simp only [Relation.insert_rows, h, Bool.not_false, if_true, ite_true]

theorem sorted_lt_eq_of_mem_iff :
    ∀ (l1 l2 : List Nat), l1.Pairwise (· < ·) → l2.Pairwise (· < ·) →
      (∀ x, x ∈ l1 ↔ x ∈ l2) → l1 = l2 := by
  intro l1
  induction l1 with
  | nil =>
    intro l2 _ _ hmem
    cases l2 with
    | nil => rfl
    | cons b tl => exact absurd ((hmem b).mpr (List.mem_cons_self _ _)) (List.not_mem_nil b)
  | cons a tl1 ih =>
    intro l2 h1 h2 hmem
    cases l2 with
    | nil => exact absurd ((hmem a).mp (List.mem_cons_self _ _)) (List.not_mem_nil a)
    | cons b tl2 =>
      have hab : a = b := by
        have ha2 : a ∈ b :: tl2 := (hmem a).mp (List.mem_cons_self _ _)
        have hb1 : b ∈ a :: tl1 := (hmem b).mpr (List.mem_cons_self _ _)
        rcases List.mem_cons.mp ha2 with h | h
        · exact h
        · rcases List.mem_cons.mp hb1 with h3 | h3
          · exact h3.symm
          · have hba : b < a := (List.pairwise_cons.mp h2).1 a h
            have hab2 : a < b := (List.pairwise_cons.mp h1).1 b h3
            omega
      subst hab
      have htl : ∀ x, x ∈ tl1 ↔ x ∈ tl2 := by
        intro x
        constructor
        · intro hx
          have hax : a < x := (List.pairwise_cons.mp h1).1 x hx
          rcases List.mem_cons.mp ((hmem x).mp (List.mem_cons_of_mem _ hx)) with h | h
          · omega
          · exact h
        · intro hx
          have hax : a < x := (List.pairwise_cons.mp h2).1 x hx
          rcases List.mem_cons.mp ((hmem x).mpr (List.mem_cons_of_mem _ hx)) with h | h
          · omega
          · exact h
      rw [ih tl2 (List.pairwise_cons.mp h1).2 (List.pairwise_cons.mp h2).2 htl]

theorem filter_range_eq_self (idxs : List Nat) (n : Nat)
    (hs : idxs.Pairwise (· < ·)) (hb : ∀ j ∈ idxs, j < n) :
    (List.range n).filter (fun j => decide (j ∈ idxs)) = idxs := by
  apply sorted_lt_eq_of_mem_iff
  · refine List.Pairwise.filter _ ?_
    rw [List.range_eq_range']
    exact List.pairwise_lt_range' 0 n
  · exact hs
  · intro x
    simp only [List.mem_filter, List.mem_range, decide_eq_true_eq]
    exact ⟨fun h => h.2, fun h => ⟨hb x h, h⟩⟩

theorem enumFrom_filter_map_snd (idxs : List Nat) :
    ∀ (l : List Value) (s : Nat),
      ((List.enumFrom s l).filter fun iv => decide (iv.1 ∈ idxs)).map Prod.snd =
        ((List.range' s l.length).filter fun j => decide (j ∈ idxs)).map
          fun j => l.getD (j - s) (Value.Int 0) := by
  intro l
  induction l with
  | nil =>
    intro s
    rfl
  | cons v tl ih =>
    intro s
    rw [show List.enumFrom s (v :: tl) = (s, v) :: List.enumFrom (s + 1) tl from rfl]
    rw [show List.range' s (v :: tl).length = s :: List.range' (s + 1) tl.length from rfl]
    rw [List.filter_cons, List.filter_cons]
    by_cases hp : (decide (s ∈ idxs)) = true
    · rw [if_pos (by exact hp), if_pos hp, List.map_cons, List.map_cons]
      rw [ih (s + 1)]
      congr 1
      · simp
      · apply List.map_congr_left
        intro j hj
        have hj2 : j ∈ List.range' (s + 1) tl.length := List.mem_of_mem_filter hj
        have hs1 : s + 1 ≤ j := (List.mem_range'_1.mp hj2).1
        have hsub : j - s = (j - (s + 1)) + 1 := by omega
        rw [hsub, List.getD_cons_succ]
    · rw [if_neg (by exact hp), if_neg hp]
      rw [ih (s + 1)]
      apply List.map_congr_left
      intro j hj
      have hj2 : j ∈ List.range' (s + 1) tl.length := List.mem_of_mem_filter hj
      have hs1 : s + 1 ≤ j := (List.mem_range'_1.mp hj2).1
      have hsub : j - s = (j - (s + 1)) + 1 := by omega
      rw [hsub, List.getD_cons_succ]

theorem projectRow_eq_range_filter (idxs : List Nat) (inner : Row) :
    projectRow idxs inner =
      ((List.range inner.length).filter fun j => decide (j ∈ idxs)).map
        fun j => inner.getD j (Value.Int 0) := by
  show ((List.enumFrom 0 inner).filter fun iv => decide (iv.1 ∈ idxs)).map Prod.snd = _
  rw [enumFrom_filter_map_snd idxs inner 0, List.range_eq_range']
  apply List.map_congr_left
  intro j _
  rw [Nat.sub_zero]

theorem projectRow_length_le (idxs : List Nat) (inner : Row) :
    (projectRow idxs inner).length ≤ idxs.dedup.length := by
  unfold projectRow
  rw [List.length_map]
  have hnd : ((inner.enum.filter fun iv => decide (iv.1 ∈ idxs)).map Prod.fst).Nodup := by
    have hsub : ((inner.enum.filter fun iv => decide (iv.1 ∈ idxs)).map Prod.fst).Sublist
        (inner.enum.map Prod.fst) := (List.filter_sublist _).map _
    exact hsub.nodup (List.nodup_enum_map_fst inner)
  have hsubset : ∀ x ∈ (inner.enum.filter fun iv => decide (iv.1 ∈ idxs)).map Prod.fst,
      x ∈ idxs.dedup := by
    intro x hx
    rcases List.mem_map.mp hx with ⟨iv, hiv, hfst⟩
    have hdec := List.of_mem_filter hiv
    rw [List.mem_dedup]
    exact hfst ▸ (by simpa using hdec)
  have hsp := List.subperm_of_subset hnd hsubset
  calc (inner.enum.filter fun iv => decide (iv.1 ∈ idxs)).length
      = ((inner.enum.filter fun iv => decide (iv.1 ∈ idxs)).map Prod.fst).length := by
        rw [List.length_map]
    _ ≤ idxs.dedup.length := hsp.length_le

theorem selIndices_optionMap (p : ProjAttrs) (rel : Relation)
    (hall : ∀ a ∈ p.toList, a ∈ rel.schema.attributes) :
    optionMap (fun a => position (fun x => decide (x = a)) rel.schema.attributes) p.toList =
      some (selIndices p rel) := by
  obtain ⟨ys, hys⟩ := optionMap_isSome_of_forall
    (fun a => position (fun x => decide (x = a)) rel.schema.attributes) p.toList
    (fun a ha => position_isSome_of_mem a _ (hall a ha))
  rw [hys]
  have h2 : selIndices p rel = ys := optionMap_eq_filterMap _ _ _ hys
  rw [h2]

theorem selIndices_bound (p : ProjAttrs) (rel : Relation) :
    ∀ j ∈ selIndices p rel, j < rel.schema.attributes.length := by
  intro j hj
  rcases List.mem_filterMap.mp hj with ⟨a, _, hpos⟩
  obtain ⟨hlt, _⟩ := position_spec _ _ _ hpos
  exact hlt

theorem execute_attr_reduce (a0 : Attribute) (rest : Option ProjAttrs) (rel : Relation)
    (i : Nat) (idxs : List Nat)
    (hall : ((ProjAttrs.Attr a0 rest).toList.all fun a =>
        decide (a ∈ rel.schema.attributes)) = true)
    (hidx : optionMap (fun a => position (fun x => decide (x = a)) rel.schema.attributes)
        (ProjAttrs.Attr a0 rest).toList = some idxs)
    (hpk : rel.pk = some i) :
    (ProjAttrs.Attr a0 rest).execute rel =
      (if !(decide (i ∈ idxs)) then
         match (Relation.mk "derived" none (Schema.mk (ProjAttrs.Attr a0 rest).toList)
             (Data.NoPK 0 [])).insert_rows
             ((rel.data.tuples.map (projectRow idxs)).dedup) with
         | none => none
         | some bd => some (some bd.2)
       else
         match (Relation.mk "derived" (some i) (Schema.mk (ProjAttrs.Attr a0 rest).toList)
             (Data.WithPK [])).insert_rows
             ((rel.data.tuples.map (projectRow idxs)).dedup) with
         | none => none
         | some bd => some (some bd.2)) := by
  rw [execute_attr_eq]
  rw [if_neg (by simp [hall])]
  rw [hidx, hpk]

theorem execute_attr_panics_nopk (a0 : Attribute) (rest : Option ProjAttrs) (rel : Relation)
    (idxs : List Nat)
    (hall : ((ProjAttrs.Attr a0 rest).toList.all fun a =>
        decide (a ∈ rel.schema.attributes)) = true)
    (hidx : optionMap (fun a => position (fun x => decide (x = a)) rel.schema.attributes)
        (ProjAttrs.Attr a0 rest).toList = some idxs)
    (hpk : rel.pk = none) :
    (ProjAttrs.Attr a0 rest).execute rel = none := by
  rw [execute_attr_eq]
  rw [if_neg (by simp [hall])]
  rw [hidx, hpk]

/-- C9: applying select-all projection twice in succession yields a derived
relation whose tuple set equals the tuple set of the first select-all's
result (idempotence up to row ordering). -/
theorem selectall_idempotent (rel d1 d2 : Relation)
    (h1 : ProjAttrs.None.execute rel = some (some d1))
    (h2 : ProjAttrs.None.execute d1 = some (some d2)) :
    d2.data.tuples.toFinset = d1.data.tuples.toFinset := by
  obtain ⟨b1, hins1⟩ := execute_none_insert_rows rel d1 h1
  cases hpk : rel.pk with
  | none =>
    rcases insert_rows_fresh_noPK_cases (selectAllFresh rel) _ b1 d1
        (by simp [selectAllFresh, hpk]) (by simp [selectAllFresh, hpk]) hins1 with
      ⟨_, hd1⟩ | ⟨_, hval1, hd1⟩
    · have hemp : d1.data.tuples = [] := by
        rw [hd1]
        simp [selectAllFresh, hpk, Data.tuples]
      rw [selectall_of_empty d1 d2 hemp h2, hemp]
    · have htup1 : d1.data.tuples = rel.data.tuples.dedup := by
        rw [hd1]
        show (Data.NoPK _ (tagFrom 0 rel.data.tuples.dedup)).tuples = _
        simp [Data.tuples, tagFrom_map_snd]
      obtain ⟨b2, hins2⟩ := execute_none_insert_rows d1 d2 h2
      have hpk1 : d1.pk = none := by
        rw [hd1]
        simp [withData, selectAllFresh, hpk]
      have hvals2 : d1.data.tuples.dedup = d1.data.tuples := by
        rw [htup1]
        exact List.dedup_eq_self.mpr (List.nodup_dedup _)
      have hschd : (selectAllFresh d1).schema = (selectAllFresh rel).schema := by
        show d1.schema = rel.schema
        rw [hd1]
        rfl
      have hval2 : (d1.data.tuples.dedup.all fun r =>
          (selectAllFresh d1).schema.validate_row r) = true := by
        rw [hvals2, htup1, hschd]
        exact hval1
      have hsucc2 := insert_rows_fresh_noPK_success (selectAllFresh d1) d1.data.tuples.dedup
        (by simp [selectAllFresh, hpk1]) (by simp [selectAllFresh, hpk1]) hval2
      rw [hsucc2] at hins2
      injection hins2 with hins2
      injection hins2 with hb2 hd2
      have htup2 : d2.data.tuples = d1.data.tuples.dedup := by
        rw [← hd2]
        exact tagFrom_map_snd _ _
      rw [htup2, hvals2]
  | some i =>
    rcases insert_rows_fresh_withPK_cases (selectAllFresh rel) i _ b1 d1
        (by simp [selectAllFresh, hpk]) (by simp [selectAllFresh, hpk]) hins1 with
      ⟨_, hd1⟩ | ⟨_, hval1, keys1, hkeys1, hnd1, ⟨mm1, hd1⟩, htup1⟩
    · have hemp : d1.data.tuples = [] := by
        rw [hd1]
        simp [selectAllFresh, hpk, Data.tuples]
      rw [selectall_of_empty d1 d2 hemp h2, hemp]
    · obtain ⟨b2, hins2⟩ := execute_none_insert_rows d1 d2 h2
      have hpk1 : d1.pk = some i := by
        rw [hd1]
        simp [withData, selectAllFresh, hpk]
      have hnodup1 : d1.data.tuples.Nodup := htup1.nodup_iff.mpr (List.nodup_dedup _)
      have hvals2 : d1.data.tuples.dedup = d1.data.tuples := List.dedup_eq_self.mpr hnodup1
      have hschd : (selectAllFresh d1).schema = (selectAllFresh rel).schema := by
        show d1.schema = rel.schema
        rw [hd1]
        rfl
      have hval2 : (d1.data.tuples.dedup.all fun r =>
          (selectAllFresh d1).schema.validate_row r) = true := by
        rw [List.all_eq_true]
        intro r hr
        rw [hvals2] at hr
        have hr2 : r ∈ rel.data.tuples.dedup := htup1.mem_iff.mp hr
        rw [hschd]
        exact List.all_eq_true.mp hval1 r hr2
      have hSome2 : ∀ r ∈ d1.data.tuples.dedup, (idx r i).isSome = true := by
        intro r hr
        rw [hvals2] at hr
        exact optionMap_mem_isSome _ _ _ hkeys1 r (htup1.mem_iff.mp hr)
      obtain ⟨keys2, hkeys2⟩ := optionMap_isSome_of_forall _ _ hSome2
      have hg1 : keys1 = rel.data.tuples.dedup.map fun r => (idx r i).getD (Value.Int 0) :=
        optionMap_eq_map _ _ _ (Value.Int 0) hkeys1
      have hg2 : keys2 = d1.data.tuples.dedup.map fun r => (idx r i).getD (Value.Int 0) :=
        optionMap_eq_map _ _ _ (Value.Int 0) hkeys2
      have hkperm : keys2.Perm keys1 := by
        rw [hg1, hg2, hvals2]
        exact htup1.map _
      have hnd2 : keys2.Nodup := hkperm.nodup_iff.mpr hnd1
      obtain ⟨mm2, hsucc2, hperm2⟩ := insert_rows_fresh_withPK_success (selectAllFresh d1) i
        d1.data.tuples.dedup keys2 (by simp [selectAllFresh, hpk1])
        (by simp [selectAllFresh, hpk1]) hval2 hkeys2 hnd2
      rw [hsucc2] at hins2
      injection hins2 with hins2
      injection hins2 with hb2 hd2
      have hlen2 : keys2.length = d1.data.tuples.dedup.length := optionMap_length _ _ _ hkeys2
      have htupd2 : d2.data.tuples.Perm d1.data.tuples.dedup := by
        rw [← hd2]
        show (mm2.map Prod.snd).Perm _
        exact withPK_fold_tuples_perm _ _ _ hlen2 hperm2
      rw [List.toFinset_eq_of_perm _ _ htupd2, hvals2]

/-- C9 witness: select-all on a two-row keyed relation reproduces the same
stored map, and a second select-all on the derived relation yields the
same tuple set again. -/
theorem selectall_idempotent_w :
    ProjAttrs.None.execute c9Rel = some (some c9D1) ∧
    ProjAttrs.None.execute c9D1 = some (some c9D1) ∧
    c9D1.data.tuples.toFinset = c9D1.data.tuples.toFinset :=
  ⟨by decide, by decide, selectall_idempotent c9Rel c9D1 c9D1 (by decide) (by decide)⟩

/-- C1 counterexample: projecting the list (b, a) from a relation keyed on
b — which sits at source index 1 — returns a derived relation whose
declared primary-key index is still 1, although the key attribute b is at
index 0 of the requested attribute list, contradicting the claimed
repositioning. -/
theorem projection_pk_not_repositioned_cex :
    c1Proj.execute c1Rel = some (some c1Derived) ∧
    c1Derived.pk = some 1 ∧
    c1Proj.toList.get? 0 = some c1AttrB ∧
    c1Rel.schema.attributes.get? 1 = some c1AttrB ∧
    some 1 ≠ (some 0 : Option Nat) :=
  ⟨by decide, by decide, by decide, by decide, by decide⟩

/-- C1 amended: for a source whose schema attributes are pairwise distinct,
keyed at index i, when the key attribute is among the requested attributes
and execute returns a relation, the derived relation keeps a declared
primary key equal to the source index i — copied over unchanged, not
repositioned to the key attribute's index within the requested list — and
uses Keyed storage. -/
theorem projection_pk_carried_over (p : ProjAttrs) (rel d : Relation) (i : Nat)
    (hi : i < rel.schema.attributes.length)
    (hpk : rel.pk = some i)
    (hnodup : rel.schema.attributes.Nodup)
    (hmem : rel.schema.attributes.get ⟨i, hi⟩ ∈ p.toList)
    (hexec : p.execute rel = some (some d)) :
    d.pk = some i ∧ ∃ m, d.data = Data.WithPK m := by
  cases p with
  | None => exact absurd hmem (List.not_mem_nil _)
  | Attr a0 rest =>
    have hall : ((ProjAttrs.Attr a0 rest).toList.all fun a =>
        decide (a ∈ rel.schema.attributes)) = true := by
      by_contra hc
      have hf : ((ProjAttrs.Attr a0 rest).toList.all fun a =>
          decide (a ∈ rel.schema.attributes)) = false := Bool.eq_false_iff.mpr hc
      rw [execute_attr_eq, if_pos (by simp [hf])] at hexec
      exact Option.noConfusion (Option.some.inj hexec)
    have hallm : ∀ a ∈ (ProjAttrs.Attr a0 rest).toList, a ∈ rel.schema.attributes := by
      intro a ha
      simpa using List.all_eq_true.mp hall a ha
    have hidx := selIndices_optionMap (ProjAttrs.Attr a0 rest) rel hallm
    have hpos : position (fun x => decide (x = rel.schema.attributes.get ⟨i, hi⟩))
        rel.schema.attributes = some i := position_eq_of_nodup _ i hi hnodup
    have hin : i ∈ selIndices (ProjAttrs.Attr a0 rest) rel :=
      List.mem_filterMap.mpr ⟨rel.schema.attributes.get ⟨i, hi⟩, hmem, hpos⟩
    rw [execute_attr_reduce a0 rest rel i _ hall hidx hpk] at hexec
    rw [if_neg (by simp [hin])] at hexec
    cases hins : (Relation.mk "derived" (some i) (Schema.mk (ProjAttrs.Attr a0 rest).toList)
        (Data.WithPK [])).insert_rows
        ((rel.data.tuples.map
          (projectRow (selIndices (ProjAttrs.Attr a0 rest) rel))).dedup) with
    | none =>
      rw [hins] at hexec
      exact Option.noConfusion hexec
    | some bd =>
      rw [hins] at hexec
      injection hexec with hexec
      injection hexec with hexec
      rcases insert_rows_fresh_withPK_cases _ i _ bd.1 bd.2 rfl rfl (by rw [hins]) with
        ⟨_, hd⟩ | ⟨_, _, _, _, _, ⟨mm, hd⟩, _⟩
      · rw [← hexec, hd]
        exact ⟨rfl, [], rfl⟩
      · rw [← hexec, hd]
        exact ⟨rfl, mm, rfl⟩

/-- C1 amended witness: the (b, a) projection of the b-keyed relation
keeps pk = some 1 and Keyed storage. -/
theorem projection_pk_carried_over_w :
    c1Rel.pk = some 1 ∧ c1Rel.schema.attributes.Nodup ∧
    c1Proj.execute c1Rel = some (some c1Derived) ∧
    (c1Derived.pk = some 1 ∧ ∃ m, c1Derived.data = Data.WithPK m) :=
  ⟨by decide, by decide, by decide,
    projection_pk_carried_over c1Proj c1Rel c1Derived 1 (by decide) (by decide) (by decide)
      (by decide) (by decide)⟩

/-- C2 counterexample: projecting (y, x) — the reverse of the schema order
— from a relation over (x, y) with the single row (x = "a", y = "b")
produces the row ["a", "b"] in source order, not the claimed
requested-order row ["b", "a"]. -/
theorem projection_row_order_cex :
    c2Proj.execute c2Rel = some (some c2Derived) ∧
    c2Proj.toList = [c2AttrY, c2AttrX] ∧
    [Value.Str "a", Value.Str "b"] ∈ c2Derived.data.tuples ∧
    [Value.Str "b", Value.Str "a"] ∉ c2Derived.data.tuples :=
  ⟨by decide, by decide, by decide, by decide⟩

/-- C2 amended: every row of the derived relation of an explicit projection
is obtained from some source row by keeping, in increasing source-schema
position order, the values at the selected source positions — the value at
output position j comes from the j-th smallest selected source index, not
from the j-th requested attribute. -/
theorem projection_rows_in_source_order (p : ProjAttrs) (rel d : Relation)
    (hp : p ≠ ProjAttrs.None)
    (hexec : p.execute rel = some (some d)) :
    ∀ t ∈ d.data.tuples, ∃ src ∈ rel.data.tuples,
      t = ((List.range src.length).filter fun j => decide (j ∈ selIndices p rel)).map
            fun j => src.getD j (Value.Int 0) := by
  cases p with
  | None => exact absurd rfl hp
  | Attr a0 rest =>
    have hall : ((ProjAttrs.Attr a0 rest).toList.all fun a =>
        decide (a ∈ rel.schema.attributes)) = true := by
      by_contra hc
      have hf : ((ProjAttrs.Attr a0 rest).toList.all fun a =>
          decide (a ∈ rel.schema.attributes)) = false := Bool.eq_false_iff.mpr hc
      rw [execute_attr_eq, if_pos (by simp [hf])] at hexec
      exact Option.noConfusion (Option.some.inj hexec)
    have hallm : ∀ a ∈ (ProjAttrs.Attr a0 rest).toList, a ∈ rel.schema.attributes := by
      intro a ha
      simpa using List.all_eq_true.mp hall a ha
    have hidx := selIndices_optionMap (ProjAttrs.Attr a0 rest) rel hallm
    have hval : ∀ t ∈ (rel.data.tuples.map
          (projectRow (selIndices (ProjAttrs.Attr a0 rest) rel))).dedup,
        ∃ src ∈ rel.data.tuples,
          t = ((List.range src.length).filter fun j =>
                decide (j ∈ selIndices (ProjAttrs.Attr a0 rest) rel)).map
              fun j => src.getD j (Value.Int 0) := by
      intro t ht
      rcases List.mem_map.mp (List.mem_dedup.mp ht) with ⟨src, hsrc, hproj⟩
      exact ⟨src, hsrc, by rw [← hproj, projectRow_eq_range_filter]⟩
    cases hpk : rel.pk with
    | none =>
      rw [execute_attr_panics_nopk a0 rest rel _ hall hidx hpk] at hexec
      exact Option.noConfusion hexec
    | some i =>
      rw [execute_attr_reduce a0 rest rel i _ hall hidx hpk] at hexec
      by_cases hin : (decide (i ∈ selIndices (ProjAttrs.Attr a0 rest) rel)) = true
      · rw [if_neg (by simp [hin])] at hexec
        cases hins : (Relation.mk "derived" (some i)
            (Schema.mk (ProjAttrs.Attr a0 rest).toList) (Data.WithPK [])).insert_rows
            ((rel.data.tuples.map
              (projectRow (selIndices (ProjAttrs.Attr a0 rest) rel))).dedup) with
        | none =>
          rw [hins] at hexec
          exact Option.noConfusion hexec
        | some bd =>
          rw [hins] at hexec
          injection hexec with hexec
          injection hexec with hexec
          rcases insert_rows_fresh_withPK_cases _ i _ bd.1 bd.2 rfl rfl (by rw [hins]) with
            ⟨_, hd⟩ | ⟨_, _, _, _, _, _, htup⟩
          · intro t ht
            rw [← hexec, hd] at ht
            simp [Data.tuples] at ht
          · intro t ht
            rw [← hexec] at ht
            exact hval t (htup.mem_iff.mp ht)
      · rw [if_pos (by rw [Bool.eq_false_iff.mpr hin]; rfl)] at hexec
        cases hins : (Relation.mk "derived" none
            (Schema.mk (ProjAttrs.Attr a0 rest).toList) (Data.NoPK 0 [])).insert_rows
            ((rel.data.tuples.map
              (projectRow (selIndices (ProjAttrs.Attr a0 rest) rel))).dedup) with
        | none =>
          rw [hins] at hexec
          exact Option.noConfusion hexec
        | some bd =>
          rw [hins] at hexec
          injection hexec with hexec
          injection hexec with hexec
          rcases insert_rows_fresh_noPK_cases _ _ bd.1 bd.2 rfl rfl (by rw [hins]) with
            ⟨_, hd⟩ | ⟨_, _, hd⟩
          · intro t ht
            rw [← hexec, hd] at ht
            simp [Data.tuples] at ht
          · intro t ht
            rw [← hexec, hd] at ht
            have ht2 : t ∈ (tagFrom 0 ((rel.data.tuples.map
                (projectRow (selIndices (ProjAttrs.Attr a0 rest) rel))).dedup)).map
                  Prod.snd := ht
            rw [tagFrom_map_snd] at ht2
            exact hval t ht2

/-- C2 amended witness: for the reversed (y, x) projection, every derived
row is the source-order extraction of a source row. -/
theorem projection_rows_in_source_order_w :
    c2Proj.execute c2Rel = some (some c2Derived) ∧
    (∀ t ∈ c2Derived.data.tuples, ∃ src ∈ c2Rel.data.tuples,
      t = ((List.range src.length).filter fun j => decide (j ∈ selIndices c2Proj c2Rel)).map
            fun j => src.getD j (Value.Int 0)) :=
  ⟨by decide,
    projection_rows_in_source_order c2Proj c2Rel c2Derived
      (fun h => ProjAttrs.noConfusion h) (by decide)⟩

/-- C10 counterexample: on a source with no declared primary key, a
duplicated existing attribute does not produce Some derived relation —
execute panics (the pk unwrap under the non-short-circuiting `&`). -/
theorem projection_dup_attr_nopk_cex :
    c10Attr ∈ c10NoPkRel.schema.attributes ∧
    c10Proj.execute c10NoPkRel = none :=
  ⟨by decide, by decide⟩

/-- C10 amended: for a source relation with a declared primary key, an
explicit attribute list whose attributes all exist in the schema but in
which some attribute appears more than once returns Some derived relation
containing zero rows: each projected row keeps each selected source
position only once, so it is shorter than the derived schema, validation
fails and the internal batch insert silently fails. -/
theorem projection_dup_attr_empty (p : ProjAttrs) (rel : Relation) (i : Nat)
    (hpk : rel.pk = some i)
    (hall : ∀ a ∈ p.toList, a ∈ rel.schema.attributes)
    (hdup : ¬ p.toList.Nodup) :
    ∃ d, p.execute rel = some (some d) ∧ d.data.tuples = [] := by
  cases p with
  | None => exact absurd List.nodup_nil hdup
  | Attr a0 rest =>
    have hallb : ((ProjAttrs.Attr a0 rest).toList.all fun a =>
        decide (a ∈ rel.schema.attributes)) = true := by
      rw [List.all_eq_true]
      intro a ha
      simpa using hall a ha
    have hidx := selIndices_optionMap (ProjAttrs.Attr a0 rest) rel hall
    have hndidx : ¬ (selIndices (ProjAttrs.Attr a0 rest) rel).Nodup := by
      intro hnd
      apply hdup
      have hmapg : selIndices (ProjAttrs.Attr a0 rest) rel =
          (ProjAttrs.Attr a0 rest).toList.map fun a =>
            (position (fun x => decide (x = a)) rel.schema.attributes).getD 0 :=
        optionMap_eq_map _ _ _ 0 hidx
      exact List.Nodup.of_map _ (hmapg ▸ hnd)
    have hlenidx : (selIndices (ProjAttrs.Attr a0 rest) rel).length =
        (ProjAttrs.Attr a0 rest).toList.length :=
      optionMap_length _ _ _ hidx
    have hdlt : (selIndices (ProjAttrs.Attr a0 rest) rel).dedup.length <
        (selIndices (ProjAttrs.Attr a0 rest) rel).length := by
      have hsub := List.dedup_sublist (selIndices (ProjAttrs.Attr a0 rest) rel)
      rcases lt_or_eq_of_le hsub.length_le with h | h
      · exact h
      · exact absurd (by rw [← hsub.eq_of_length h]; exact List.nodup_dedup _) hndidx
    have hshort : ∀ src : Row,
        (projectRow (selIndices (ProjAttrs.Attr a0 rest) rel) src).length <
          (ProjAttrs.Attr a0 rest).toList.length := by
      intro src
      have h1 := projectRow_length_le (selIndices (ProjAttrs.Attr a0 rest) rel) src
      omega
    by_cases hin : (decide (i ∈ selIndices (ProjAttrs.Attr a0 rest) rel)) = true
    · rw [execute_attr_reduce a0 rest rel i _ hallb hidx hpk, if_neg (by simp [hin])]
      cases hv : (rel.data.tuples.map
          (projectRow (selIndices (ProjAttrs.Attr a0 rest) rel))).dedup with
      | nil =>
        obtain ⟨mm, hsucc, hperm⟩ := insert_rows_fresh_withPK_success
          (Relation.mk "derived" (some i) (Schema.mk (ProjAttrs.Attr a0 rest).toList)
            (Data.WithPK [])) i [] [] rfl rfl (by simp) rfl List.nodup_nil
        have hmm : mm = [] := List.perm_nil.mp (by simpa using hperm)
        refine ⟨withData (Relation.mk "derived" (some i)
            (Schema.mk (ProjAttrs.Attr a0 rest).toList) (Data.WithPK []))
            (Data.WithPK mm), ?_, ?_⟩
        · rw [hsucc]
        · simp [withData, Data.tuples, hmm]
      | cons v vs =>
        have hvf : ((v :: vs).all fun r =>
            (Relation.mk "derived" (some i) (Schema.mk (ProjAttrs.Attr a0 rest).toList)
              (Data.WithPK [])).schema.validate_row r) = false := by
          rw [Bool.eq_false_iff]
          intro hvt
          have hvv := List.all_eq_true.mp hvt v (List.mem_cons_self _ _)
          have hvmem : v ∈ (rel.data.tuples.map
              (projectRow (selIndices (ProjAttrs.Attr a0 rest) rel))).dedup := by
            rw [hv]
            exact List.mem_cons_self _ _
          rcases List.mem_map.mp (List.mem_dedup.mp hvmem) with ⟨src, _, hproj⟩
          have hlen2 : v.length = (ProjAttrs.Attr a0 rest).toList.length :=
            ((validate_row_iff_aux _ _).mp hvv).1
          rw [← hproj] at hlen2
          have hs := hshort src
          omega
        refine ⟨Relation.mk "derived" (some i)
            (Schema.mk (ProjAttrs.Attr a0 rest).toList) (Data.WithPK []), ?_, rfl⟩
        rw [insert_rows_invalid _ _ hvf]
    · rw [execute_attr_reduce a0 rest rel i _ hallb hidx hpk,
        if_pos (by rw [Bool.eq_false_iff.mpr hin]; rfl)]
      cases hv : (rel.data.tuples.map
          (projectRow (selIndices (ProjAttrs.Attr a0 rest) rel))).dedup with
      | nil =>
        have hsucc := insert_rows_fresh_noPK_success
          (Relation.mk "derived" none (Schema.mk (ProjAttrs.Attr a0 rest).toList)
            (Data.NoPK 0 [])) [] rfl rfl (by simp)
        refine ⟨withData (Relation.mk "derived" none
            (Schema.mk (ProjAttrs.Attr a0 rest).toList) (Data.NoPK 0 []))
            (Data.NoPK 0 (tagFrom 0 [])), ?_, ?_⟩
        · rw [hsucc]
          rfl
        · rfl
      | cons v vs =>
        have hvf : ((v :: vs).all fun r =>
            (Relation.mk "derived" none (Schema.mk (ProjAttrs.Attr a0 rest).toList)
              (Data.NoPK 0 [])).schema.validate_row r) = false := by
          rw [Bool.eq_false_iff]
          intro hvt
          have hvv := List.all_eq_true.mp hvt v (List.mem_cons_self _ _)
          have hvmem : v ∈ (rel.data.tuples.map
              (projectRow (selIndices (ProjAttrs.Attr a0 rest) rel))).dedup := by
            rw [hv]
            exact List.mem_cons_self _ _
          rcases List.mem_map.mp (List.mem_dedup.mp hvmem) with ⟨src, _, hproj⟩
          have hlen2 : v.length = (ProjAttrs.Attr a0 rest).toList.length :=
            ((validate_row_iff_aux _ _).mp hvv).1
          rw [← hproj] at hlen2
          have hs := hshort src
          omega
        refine ⟨Relation.mk "derived" none
            (Schema.mk (ProjAttrs.Attr a0 rest).toList) (Data.NoPK 0 []), ?_, rfl⟩
        rw [insert_rows_invalid _ _ hvf]

/-- C10 amended witness: projecting (value, value) from the keyed relation
(id, value) with one row returns Some derived relation with zero rows. -/
theorem projection_dup_attr_empty_w :
    c10Rel.pk = some 0 ∧ (¬ c10Proj.toList.Nodup) ∧
    (∃ d, c10Proj.execute c10Rel = some (some d) ∧ d.data.tuples = []) :=
  ⟨by decide, by decide,
    projection_dup_attr_empty c10Proj c10Rel 0 (by decide) (by decide) (by decide)⟩

theorem zip_all_projected (schema : Schema) (src : Row)
    (hsrclen : src.length = schema.attributes.length)
    (hsrcty : ∀ j (hr : j < src.length) (hs : j < schema.attributes.length),
      tyMatches (schema.attributes.get ⟨j, hs⟩).atype (src.get ⟨j, hr⟩) = true) :
    ∀ (attrs : List Attribute) (idxs : List Nat),
      List.Forall₂ (fun a j => ∃ hj : j < schema.attributes.length,
        schema.attributes.get ⟨j, hj⟩ = a) attrs idxs →
      ((attrs.zip (idxs.map fun j => src.getD j (Value.Int 0))).all
        fun ab => tyMatches ab.1.atype ab.2) = true := by
  intro attrs idxs hfa
  induction hfa with
  | nil => rfl
  | @cons a j l1 l2 hab htl ih =>
    simp only [List.map_cons, List.zip_cons_cons, List.all_cons, Bool.and_eq_true]
    refine ⟨?_, ih⟩
    obtain ⟨hj, hattr⟩ := hab
    have hjr : j < src.length := by
      rw [hsrclen]
      exact hj
    rw [List.getD_eq_get src (Value.Int 0) hjr]
    rw [← hattr]
    exact hsrcty _ hjr hj

/-- C8 counterexample: requesting (phone, name) — the reverse of the
source-schema order — from the keyed (id, name, phone) relation with one
row yields a key-less derived relation with ZERO rows (each projected row
is built in source order (name, phone) and fails validation against the
(phone, name) derived schema), so its tuple set is not the set-semantics
projection of the source rows, which is nonempty. -/
theorem projection_drop_key_cex :
    c8Proj.execute c8Rel = some (some (Relation.mk "derived" none
      (Schema.mk [c8AttrPhone, c8AttrName]) (Data.NoPK 0 []))) ∧
    (Relation.mk "derived" none (Schema.mk [c8AttrPhone, c8AttrName])
      (Data.NoPK 0 [])).data.tuples = [] ∧
    c8Rel.data.tuples ≠ [] :=
  ⟨by decide, by decide, by decide⟩

/-- C8 amended: for a keyed source whose key attribute is not requested,
when the requested attributes (all present, in source-schema order, i.e.
with strictly increasing selected indices) are projected from rows that
satisfy the source schema, the derived relation declares no primary key,
uses Surrogate storage with counter n and fresh sequential identifiers
0 … n−1 where n is the number of distinct projected rows, and its tuple
set equals the full-row-deduplicated projection of the source rows. -/
theorem projection_drop_key_surrogate (p : ProjAttrs) (rel : Relation) (i : Nat)
    (hi : i < rel.schema.attributes.length)
    (hpk : rel.pk = some i)
    (hall : ∀ a ∈ p.toList, a ∈ rel.schema.attributes)
    (hkey : rel.schema.attributes.get ⟨i, hi⟩ ∉ p.toList)
    (hsorted : (selIndices p rel).Pairwise (· < ·))
    (hrows : ∀ r ∈ rel.data.tuples, rel.schema.validate_row r = true)
    (hp : p ≠ ProjAttrs.None) :
    ∃ d, p.execute rel = some (some d) ∧ d.pk = none ∧
      d.schema = Schema.mk p.toList ∧
      d.data = Data.NoPK
        (((rel.data.tuples.map (projectRow (selIndices p rel))).dedup.length : Nat) : I32)
        (tagFrom 0 ((rel.data.tuples.map (projectRow (selIndices p rel))).dedup)) ∧
      (tagFrom 0 ((rel.data.tuples.map (projectRow (selIndices p rel))).dedup)).map Prod.fst =
        (List.range (rel.data.tuples.map (projectRow (selIndices p rel))).dedup.length).map
          Int.ofNat ∧
      (tagFrom 0 ((rel.data.tuples.map (projectRow (selIndices p rel))).dedup)).map Prod.snd =
        (rel.data.tuples.map (projectRow (selIndices p rel))).dedup ∧
      ((rel.data.tuples.map (projectRow (selIndices p rel))).dedup).toFinset =
        (rel.data.tuples.map (projectRow (selIndices p rel))).toFinset ∧
      ((rel.data.tuples.map (projectRow (selIndices p rel))).dedup).Nodup := by
  cases p with
  | None => exact absurd rfl hp
  | Attr a0 rest =>
    have hallb : ((ProjAttrs.Attr a0 rest).toList.all fun a =>
        decide (a ∈ rel.schema.attributes)) = true := by
      rw [List.all_eq_true]
      intro a ha
      simpa using hall a ha
    have hidx := selIndices_optionMap (ProjAttrs.Attr a0 rest) rel hall
    have hnotin : i ∉ selIndices (ProjAttrs.Attr a0 rest) rel := by
      intro hmem
      rcases List.mem_filterMap.mp hmem with ⟨a, haT, hpos⟩
      obtain ⟨hlt, hpa⟩ := position_spec _ _ _ hpos
      have hga : rel.schema.attributes.get ⟨i, hlt⟩ = a := by simpa using hpa
      exact hkey (by
        rw [show rel.schema.attributes.get ⟨i, hi⟩ =
          rel.schema.attributes.get ⟨i, hlt⟩ from rfl, hga]
        exact haT)
    have hfa2 : List.Forall₂ (fun a j => ∃ hj : j < rel.schema.attributes.length,
        rel.schema.attributes.get ⟨j, hj⟩ = a) (ProjAttrs.Attr a0 rest).toList
        (selIndices (ProjAttrs.Attr a0 rest) rel) := by
      refine (optionMap_forall₂ _ _ _ hidx).imp ?_
      intro a j hpos
      obtain ⟨hj, hpa⟩ := position_spec _ _ _ hpos
      exact ⟨hj, by simpa using hpa⟩
    have hvalid : (((rel.data.tuples.map
        (projectRow (selIndices (ProjAttrs.Attr a0 rest) rel))).dedup).all fun r =>
        (Relation.mk "derived" none (Schema.mk (ProjAttrs.Attr a0 rest).toList)
          (Data.NoPK 0 [])).schema.validate_row r) = true := by
      rw [List.all_eq_true]
      intro v hv
      rcases List.mem_map.mp (List.mem_dedup.mp hv) with ⟨src, hsrc, hproj⟩
      obtain ⟨hsrclen, hsrcty⟩ := (validate_row_iff_aux _ _).mp (hrows src hsrc)
      have hvmap : v = (selIndices (ProjAttrs.Attr a0 rest) rel).map
          fun j => src.getD j (Value.Int 0) := by
        rw [← hproj, projectRow_eq_range_filter,
          filter_range_eq_self _ src.length hsorted
            (fun j hj => by rw [hsrclen]; exact selIndices_bound _ rel j hj)]
      have hlenw : ((selIndices (ProjAttrs.Attr a0 rest) rel).map
          fun j => src.getD j (Value.Int 0)).length =
            (ProjAttrs.Attr a0 rest).toList.length := by
        rw [List.length_map]
        exact hfa2.length_eq.symm
      rw [hvmap]
      show (Schema.mk (ProjAttrs.Attr a0 rest).toList).validate_row _ = true
      unfold Schema.validate_row
      rw [if_neg (by simp [hfa2.length_eq.symm])]
      exact zip_all_projected rel.schema src hsrclen hsrcty _ _ hfa2
    rw [execute_attr_reduce a0 rest rel i _ hallb hidx hpk]
    rw [if_pos (by simp [hnotin])]
    have hsucc := insert_rows_fresh_noPK_success
      (Relation.mk "derived" none (Schema.mk (ProjAttrs.Attr a0 rest).toList) (Data.NoPK 0 []))
      ((rel.data.tuples.map (projectRow (selIndices (ProjAttrs.Attr a0 rest) rel))).dedup)
      rfl rfl hvalid
    rw [hsucc]
    refine ⟨withData (Relation.mk "derived" none
        (Schema.mk (ProjAttrs.Attr a0 rest).toList) (Data.NoPK 0 []))
        (Data.NoPK (((rel.data.tuples.map
          (projectRow (selIndices (ProjAttrs.Attr a0 rest) rel))).dedup.length : Nat) : I32)
          (tagFrom 0 ((rel.data.tuples.map
            (projectRow (selIndices (ProjAttrs.Attr a0 rest) rel))).dedup))),
      rfl, rfl, rfl, rfl, ?_, ?_, ?_, ?_⟩
    · rw [tagFrom_map_fst]
      apply List.map_congr_left
      intro j _
      exact zero_add _
    · exact tagFrom_map_snd _ _
    · exact List.toFinset.ext fun x => List.mem_dedup
    · exact List.nodup_dedup _

/-- C8 amended witness: projecting (name, phone) — schema order, key id
dropped — from the one-row keyed users relation yields a key-less
Surrogate relation with the single identifier 0 and the projected row. -/
theorem projection_drop_key_surrogate_w :
    c8Rel.pk = some 0 ∧ (selIndices c8wProj c8Rel).Pairwise (· < ·) ∧
    (∃ d, c8wProj.execute c8Rel = some (some d) ∧ d.pk = none ∧
      d.data = Data.NoPK 1 (tagFrom 0 [[Value.Str "bob", Value.Int 7]])) := by
  refine ⟨by decide, by decide, ?_⟩
  obtain ⟨d, h1, h2, _, h4, _⟩ := projection_drop_key_surrogate c8wProj c8Rel 0
    (by decide) (by decide) (by decide) (by decide) (by decide) (by decide)
    (fun h => ProjAttrs.noConfusion h)
  refine ⟨d, h1, h2, ?_⟩
  rw [h4]
  rfl

/-- C6 witness: inserting (1, "foo") into the empty keyed test relation
succeeds, stores exactly one entry at key 1, and a second insert carrying
key 1 is rejected without change. -/
theorem insert_row_fresh_key_w :
    c6Rel.schema.validate_row [Value.Int 1, Value.Str "foo"] = true ∧
    (c6Rel.insert_row [Value.Int 1, Value.Str "foo"] =
      some (true, withData c6Rel
        (Data.WithPK (mapInsert (Value.Int 1) [Value.Int 1, Value.Str "foo"] []))) ∧
     (mapInsert (Value.Int 1) [Value.Int 1, Value.Str "foo"] []).filter
        (fun e => decide (e.1 = Value.Int 1)) = [(Value.Int 1, [Value.Int 1, Value.Str "foo"])] ∧
     ∀ (row2 : Row) (h2 : 0 < row2.length), row2.get ⟨0, h2⟩ = Value.Int 1 →
      (withData c6Rel
          (Data.WithPK (mapInsert (Value.Int 1) [Value.Int 1, Value.Str "foo"] []))).insert_row
            row2 =
        some (false, withData c6Rel
          (Data.WithPK (mapInsert (Value.Int 1) [Value.Int 1, Value.Str "foo"] [])))) :=
  ⟨by decide,
    insert_row_fresh_key c6Rel 0 [] [Value.Int 1, Value.Str "foo"] (by decide) (by decide)
      (by decide) (by decide) (by decide)⟩

/-- C7 witness: projecting the unknown attribute (zzz: Str) yields no
result on a concrete one-column relation. -/
theorem projection_unknown_attr_none_w :
    ({ name := "zzz", atype := Ty.Str } : Attribute) ∈ c7Proj.toList ∧
    ({ name := "zzz", atype := Ty.Str } : Attribute) ∉ c7Rel.schema.attributes ∧
    c7Proj.execute c7Rel = some none :=
  ⟨by decide, by decide,
    projection_unknown_attr_none c7Proj c7Rel { name := "zzz", atype := Ty.Str }
      (by decide) (by decide)⟩

end Codd
